import Mathlib

/-!
Verification of the tracker-manager repository's core string and data
operations, shallowly embedded from the Python sources.

Strings are modelled as `List Char`.  Python's `str.lower` is modelled with
`Char.toLower` (ASCII case folding, the range the program exercises),
`str.strip` with dropping whitespace from both ends, and the two
`re.sub` calls of `Tracker.normalize_tracker_url` are modelled directly:

* `re.sub(r'[?&](tr|ws|as)=[^&]+', '', url)` scans left to right and removes
  every non-overlapping match; after a match, scanning resumes at the `&`
  that terminated the greedy value (or at the end of the string).  This is
  `sub1` below, written with explicit fuel so that it computes by `decide`;
  one unit of fuel is spent per character examined, so `l.length` fuel
  always suffices.
* `re.sub(r'[?&]+$', '', url)`: in Python, `$` matches at the end of the
  string and also just before a final newline, so the removed run is the
  maximal `[?&]+` run ending there.  This is `sub2` below.
* `re.search(r'[?&]xt=urn:btih:([a-fA-F0-9]{40}|[a-zA-Z2-7]{32})', url, re.I)`
  runs on the already lowercased string, so the effective character classes
  are `[a-f0-9]` and `[a-z2-7]`; the leftmost match position is found, the
  40-hex alternative is tried before the 32-base-32 one, and the capture is
  the first 40 (resp. 32) characters after the `btih:` marker.  This is
  `magnetSearch` below.
-/

/-- Python whitespace as stripped by `str.strip` (ASCII range). -/
def isSpace (c : Char) : Bool :=
  c = ' ' || c = '\t' || c = '\n' || c = '\r' || c = '\x0b' || c = '\x0c'

/-- Model of `str.lower` (ASCII case folding). -/
def lower (l : List Char) : List Char := l.map Char.toLower

/-- Model of `str.strip`. -/
def strip (l : List Char) : List Char :=
  ((l.dropWhile isSpace).reverse.dropWhile isSpace).reverse

/-- A character that can open a match of `[?&](tr|ws|as)=[^&]+`. -/
def isAmp (c : Char) : Bool := c = '?' || c = '&'

/-- The parameter keys removed by the first substitution. -/
def keyMatch (a b : Char) : Bool :=
  (a = 't' && b = 'r') || (a = 'w' && b = 's') || (a = 'a' && b = 's')

/-- After a `?` or `&`, does the remainder start with `(tr|ws|as)=` followed
by at least one non-`&` value character?  This is exactly the condition for
the regex `[?&](tr|ws|as)=[^&]+` to match here. -/
def shape : List Char → Bool
  | a :: b :: x :: v :: _ => keyMatch a b && x = '=' && !(v = '&')
  | _ => false

/-- One fuel unit is consumed per character examined; when a match is found,
the four characters `K₁K₂=v` and the rest of the greedy value are removed and
scanning resumes at the terminating `&` (which may open the next match). -/
def sub1Fuel : Nat → List Char → List Char
  | _, [] => []
  | 0, l => l
  | fuel + 1, c :: rest =>
    if isAmp c && shape rest then
      sub1Fuel fuel ((rest.drop 4).dropWhile (fun x => !(x = '&')))
    else
      c :: sub1Fuel fuel rest

/-- Model of `re.sub(r'[?&](tr|ws|as)=[^&]+', '', url)`. -/
def sub1 (l : List Char) : List Char := sub1Fuel l.length l

/-- Remove the maximal trailing run of `?`/`&` characters. -/
def rstripAmps (l : List Char) : List Char :=
  (l.reverse.dropWhile isAmp).reverse

/-- Model of `re.sub(r'[?&]+$', '', url)`: Python's `$` also matches just
before a newline that ends the string. -/
def sub2 (l : List Char) : List Char :=
  match l.getLast? with
  | some '\n' => rstripAmps l.dropLast ++ ['\n']
  | _ => rstripAmps l

/-- The class `[a-fA-F0-9]` of the info-hash regex, on the lowercased text. -/
def isHexLower (c : Char) : Bool :=
  ('a' ≤ c && c ≤ 'f') || ('0' ≤ c && c ≤ '9')

/-- The class `[a-zA-Z2-7]` of the info-hash regex, on the lowercased text. -/
def isB32Lower (c : Char) : Bool :=
  ('a' ≤ c && c ≤ 'z') || ('2' ≤ c && c ≤ '7')

/-- Try the two alternatives of the capture group at a fixed position:
40 hex characters first, else 32 base-32 characters. -/
def hashAt (l : List Char) : Option (List Char) :=
  let h40 := l.take 40
  if h40.length = 40 && h40.all isHexLower then some h40
  else
    let h32 := l.take 32
    if h32.length = 32 && h32.all isB32Lower then some h32 else none

/-- Model of `re.search(r'[?&]xt=urn:btih:(...)', url, re.I)` on the
lowercased string: leftmost match wins; a position whose marker matches but
whose hash is invalid is skipped. -/
def magnetSearch : List Char → Option (List Char)
  | [] => none
  | c :: rest =>
    if isAmp c && decide (rest.take 12 = "xt=urn:btih:".data) then
      match hashAt (rest.drop 12) with
      | some h => some h
      | none => magnetSearch rest
    else magnetSearch rest

/-- The characters a `hashAt` capture can contain. -/
def isHashChar (c : Char) : Bool := isHexLower c || isB32Lower c

/-- The class `[a-fA-F0-9]` of the info-hash regex on raw (any-case) text:
`re.I` makes it case-insensitive. -/
def isHexCI (c : Char) : Bool := isHexLower c.toLower

/-- The class `[a-zA-Z2-7]` of the info-hash regex on raw (any-case) text. -/
def isB32CI (c : Char) : Bool := isB32Lower c.toLower

/-- Whether the list contains a match of `[?&](tr|ws|as)=[^&]+` anywhere;
`sub1` is the identity exactly on window-free lists. -/
def hasWindow : List Char → Bool
  | [] => false
  | c :: rest => (isAmp c && shape rest) || hasWindow rest

/-- Model of `Tracker.normalize_tracker_url`. -/
def normalize_tracker_url (url : List Char) : List Char :=
  let u := strip (lower url)
  let u := sub2 (sub1 u)
  if u.take 7 = "magnet:".data then
    match magnetSearch u with
    | some h => "magnet:btih:".data ++ lower h
    | none => u
  else u

/-!
`Tracker.normalize_tracker_url_cached` wraps the normalizer in
`functools.lru_cache(maxsize=1000)`: a hit returns the stored value and
makes its key most recently used, a miss computes the value, stores it and
evicts the least recently used entry when the capacity is exceeded.  The
cache is modelled as an association list ordered from most to least
recently used.
-/

/-- One call of `Tracker.normalize_tracker_url_cached`: the returned string
and the updated cache state. -/
def normalize_tracker_url_cached (cache : List (List Char × List Char))
    (url : List Char) : List Char × List (List Char × List Char) :=
  match cache.find? (fun p => p.1 = url) with
  | some p => (p.2, (p.1, p.2) :: cache.filter (fun q => !(q.1 = url : Bool)))
  | none =>
    (normalize_tracker_url url,
      ((url, normalize_tracker_url url) :: cache).take 1000)

/-- A sequence of calls to the cached normalizer, returning the answers in
order together with the final cache state. -/
def runCached (urls : List (List Char)) (cache : List (List Char × List Char)) :
    List (List Char) × List (List Char × List Char) :=
  match urls with
  | [] => ([], cache)
  | u :: us =>
    let r := normalize_tracker_url_cached cache u
    let rest := runCached us r.2
    (r.1 :: rest.1, rest.2)

/-!
`TrackerParser.remove_duplicates` walks the raw list, keeps a set of
normalized keys already seen, and appends the raw string to the output when
its normalized key is truthy (a non-empty string) and not seen yet.
-/

/-- Loop body of `TrackerParser.remove_duplicates`; `seen` is the set of
normalized keys collected so far. -/
def remove_duplicates_aux (seen : List (List Char)) :
    List (List Char) → List (List Char)
  | [] => []
  | t :: ts =>
    let normalized := normalize_tracker_url t
    if normalized ≠ [] ∧ normalized ∉ seen then
      t :: remove_duplicates_aux (normalized :: seen) ts
    else
      remove_duplicates_aux seen ts

/-- Model of `TrackerParser.remove_duplicates`. -/
def remove_duplicates (trackers : List (List Char)) : List (List Char) :=
  remove_duplicates_aux [] trackers

/-!
`Tracker.sanitize_tracker_url` calls `urllib.parse.urlparse` and keeps the
input unchanged when the parsed scheme is `http`, `https` or `udp` and the
parsed hostname is non-empty; any exception from parsing is swallowed by the
bare `except` and turned into `None`.  The relevant fragment of
`urllib.parse.urlsplit` is embedded here: tab, carriage-return and newline
characters are removed first; a scheme is split off at the first `:` when
the prefix before it is non-empty, starts with an ASCII letter and consists
of scheme characters, and is lowercased; a netloc exists only after `//` and
extends to the next `/`, `?` or `#`; a `[` without `]` in the netloc (or
vice versa) raises `ValueError`; the hostname is the part of the netloc
after the last `@`, up to `:` (or the bracketed part), lowercased, and is
`None` when empty.  This is CPython's long-standing `urlsplit` semantics;
the leading-whitespace stripping and the bracketed-host address-validity
check added by recent CPython security fixes (3.10.12+/3.11.4+), and the
NFKC netloc check that only concerns non-ASCII input, are not modelled —
the repository pins no Python version.
-/

/-- Characters `urllib.parse` deletes from the URL before parsing. -/
def removeUnsafe (l : List Char) : List Char :=
  l.filter (fun c => !(c = '\t' || c = '\r' || c = '\n'))

/-- Characters allowed in a URL scheme after the leading letter. -/
def isSchemeChar (c : Char) : Bool :=
  c.isAlpha || c.isDigit || c = '+' || c = '-' || c = '.'

/-- Split off the scheme as `urllib.parse.urlsplit` does: `(scheme, rest)`,
with `scheme = []` when the URL has none. -/
def splitScheme (l : List Char) : List Char × List Char :=
  let pre := l.takeWhile (fun c => !(c = ':'))
  if pre.length < l.length ∧ pre ≠ [] ∧
      (pre.headD ' ').isAlpha ∧ pre.all isSchemeChar then
    (lower pre, l.drop (pre.length + 1))
  else
    ([], l)

/-- The part of the netloc after the last `@` (the whole netloc when there
is no `@`), as in `rpartition`. -/
def afterLastAt (netloc : List Char) : List Char :=
  (netloc.reverse.takeWhile (fun c => !(c = '@'))).reverse

/-- The scheme and hostname produced by `urllib.parse.urlparse`;
`Except.error` models a raised `ValueError`. -/
def urlparse (url : List Char) : Except Unit (List Char × Option (List Char)) :=
  let u := removeUnsafe url
  let sr := splitScheme u
  if (sr.2.take 2 = ['/', '/']) then
    let netloc := (sr.2.drop 2).takeWhile (fun c => !(c = '/' || c = '?' || c = '#'))
    if (netloc.contains '[' ) ≠ (netloc.contains ']') then
      Except.error ()
    else
      let hostinfo := afterLastAt netloc
      let hostname :=
        if hostinfo.contains '[' then
          ((hostinfo.dropWhile (fun c => !(c = '['))).tail).takeWhile
            (fun c => !(c = ']'))
        else
          hostinfo.takeWhile (fun c => !(c = ':'))
      Except.ok (sr.1, if hostname = [] then none else some (lower hostname))
  else
    Except.ok (sr.1, none)

/-- Model of `Tracker.sanitize_tracker_url`. -/
def sanitize_tracker_url (url : List Char) : Option (List Char) :=
  match urlparse url with
  | Except.error _ => none
  | Except.ok (scheme, hostname) =>
    if scheme = "http".data ∨ scheme = "https".data ∨ scheme = "udp".data then
      match hostname with
      | some _ => some url
      | none => none
    else none

/-!
`Config.validate_config` reads `validation.max_workers`,
`validation.timeout` and `validation.socket_timeout` through `Config.get`,
which returns `None` for a missing key.  Each required key is first tested
with Python truthiness (`if not self.get(key)`), so a missing key and a
stored `0` are rejected alike; then `max_workers` must lie in `[1, 50]` and
`timeout` must be positive.  Stored values are modelled as `Option ℚ`
(absent, or a JSON number).
-/

/-- The three configuration values `validate_config` reads. -/
structure ConfigData where
  max_workers : Option ℚ
  timeout : Option ℚ
  socket_timeout : Option ℚ

/-- Python truthiness of `Config.get`'s result for a numeric value. -/
def truthy : Option ℚ → Bool
  | none => false
  | some v => !(v = 0 : Bool)

/-- Model of `Config.validate_config`; `Except.error` carries the message of
the raised `ValueError`. -/
def validate_config (c : ConfigData) : Except String Unit :=
  if ¬ truthy c.max_workers then
    Except.error "Missing required config: validation.max_workers"
  else if ¬ truthy c.timeout then
    Except.error "Missing required config: validation.timeout"
  else if ¬ truthy c.socket_timeout then
    Except.error "Missing required config: validation.socket_timeout"
  else
    match c.max_workers with
    | none => Except.error "Missing required config: validation.max_workers"
    | some w =>
      if ¬ (1 ≤ w ∧ w ≤ 50) then
        Except.error "max_workers must be between 1 and 50"
      else
        match c.timeout with
        | none => Except.error "Missing required config: validation.timeout"
        | some t =>
          if t ≤ 0 then Except.error "timeout must be positive"
          else Except.ok ()

/-!
`HistoryView.update_stats_dashboard` and
`HistoryView.apply_filters_to_history` classify persisted history records
into reliability bands; every band condition requires `check_count >= 3`
before dividing `success_count` by `check_count`.  Counters are naturals and
the success rate is exact rational division.
-/

/-- A persisted reliability record as read by the history view. -/
structure HistoryRecord where
  url : List Char
  alive : Bool
  check_count : ℕ
  success_count : ℕ

/-- The success rate `t.success_count / t.check_count`. -/
def successRate (t : HistoryRecord) : ℚ :=
  (t.success_count : ℚ) / (t.check_count : ℚ)

/-- Band condition `t.check_count >= 3 and rate >= 0.9`. -/
def highRel (t : HistoryRecord) : Bool :=
  decide (3 ≤ t.check_count) && decide ((9 : ℚ) / 10 ≤ successRate t)

/-- Band condition `t.check_count >= 3 and 0.7 <= rate < 0.9`. -/
def mediumRel (t : HistoryRecord) : Bool :=
  decide (3 ≤ t.check_count) &&
    decide ((7 : ℚ) / 10 ≤ successRate t ∧ successRate t < (9 : ℚ) / 10)

/-- Band condition `t.check_count >= 3 and rate < 0.7`. -/
def lowRel (t : HistoryRecord) : Bool :=
  decide (3 ≤ t.check_count) && decide (successRate t < (7 : ℚ) / 10)

/-- The dashboard counter `high_rel = sum(1 for t in history if ...)`. -/
def high_rel_count (history : List HistoryRecord) : ℕ := history.countP highRel

/-- The dashboard counter `medium_rel`. -/
def medium_rel_count (history : List HistoryRecord) : ℕ :=
  history.countP mediumRel

/-- The dashboard counter `low_rel`. -/
def low_rel_count (history : List HistoryRecord) : ℕ := history.countP lowRel

/-!
`TrackerCollection` keeps `validation_results : List[Tracker]`;
`working_trackers` and `dead_trackers` are list comprehensions filtering on
`t.alive`.
-/

/-- The `Tracker` dataclass (the fields the collection properties use). -/
structure Tracker where
  url : List Char
  alive : Bool
  response_time : Option ℚ
  error : Option (List Char)
  tracker_type : List Char
deriving DecidableEq

/-- Property `TrackerCollection.working_trackers` applied to the collection
state `validation_results`. -/
def working_trackers (validation_results : List Tracker) : List Tracker :=
  validation_results.filter (fun t => t.alive)

/-- Property `TrackerCollection.dead_trackers`. -/
def dead_trackers (validation_results : List Tracker) : List Tracker :=
  validation_results.filter (fun t => !t.alive)

/-!
The `ValidationResult` dataclass is declared in
`src/models/tracker_models.py`, but the code that constructs validation
results (the protocol probes driven by the validation orchestrator) is not
under `src/`.  The probe behaviour is therefore modelled from the spec.
-/

/-- The `ValidationResult` dataclass. -/
structure ValidationResult where
  url : List Char
  alive : Bool
  response_time : Option ℚ
  error : Option (List Char)
  tracker_type : List Char
  validated_at : ℚ

/-- Modelled from the spec: the outcome of a protocol probe, which is not in
`src/`.  A probe either measures a round-trip time for a live endpoint or
classifies the failure into an error kind; it never produces both and never
neither. -/
inductive ProbeOutcome where
  | success (responseTime : ℚ)
  | failure (errorKind : List Char)

/-- Modelled from the spec: construction of a `ValidationResult` by a probe
(code not in `src/`): a live result carries the measured response time and
no error, a dead result carries an error kind and no response time. -/
def mkValidationResult (url : List Char) (o : ProbeOutcome)
    (tracker_type : List Char) (now : ℚ) : ValidationResult :=
  match o with
  | ProbeOutcome.success rt =>
    { url := url, alive := true, response_time := some rt, error := none,
      tracker_type := tracker_type, validated_at := now }
  | ProbeOutcome.failure e =>
    { url := url, alive := false, response_time := none, error := some e,
      tracker_type := tracker_type, validated_at := now }

/-!
Auxiliary facts about ASCII case folding.
-/

theorem charToNat_ofNat {n : Nat} (h : n.isValidChar) : (Char.ofNat n).toNat = n := by
  simp only [Char.ofNat, dif_pos h, Char.ofNatAux, Char.toNat]
  rfl

theorem toLower_of_not_upper {c : Char} (h : ¬(65 ≤ c.toNat ∧ c.toNat ≤ 90)) :
    c.toLower = c := by
  unfold Char.toLower
  exact if_neg (by omega)

theorem toNat_toLower_of_upper {c : Char} (h : 65 ≤ c.toNat ∧ c.toNat ≤ 90) :
    c.toLower.toNat = c.toNat + 32 := by
  unfold Char.toLower
  rw [if_pos (by omega)]
  exact charToNat_ofNat (Or.inl (by omega))

theorem toLower_idem (c : Char) : c.toLower.toLower = c.toLower := by
  by_cases h : 65 ≤ c.toNat ∧ c.toNat ≤ 90
  · have h1 := toNat_toLower_of_upper h
    exact toLower_of_not_upper (by omega)
  · rw [toLower_of_not_upper h, toLower_of_not_upper h]

theorem char_eq_iff_toNat {c d : Char} : c = d ↔ c.toNat = d.toNat := by
  constructor
  · intro h; rw [h]
  · intro h
    exact Char.eq_of_val_eq (UInt32.ext h)

theorem isSpace_eq_false_of_ge {d : Char} (hd : 65 ≤ d.toNat) : isSpace d = false := by
  simp only [isSpace, Bool.or_eq_false_iff, decide_eq_false_iff_not]
  refine ⟨⟨⟨⟨⟨?_, ?_⟩, ?_⟩, ?_⟩, ?_⟩, ?_⟩ <;>
    · rintro rfl; revert hd; decide

theorem isSpace_toLower (c : Char) : isSpace c.toLower = isSpace c := by
  by_cases h : 65 ≤ c.toNat ∧ c.toNat ≤ 90
  · have h1 := toNat_toLower_of_upper h
    rw [isSpace_eq_false_of_ge (by omega), isSpace_eq_false_of_ge (by omega)]
  · rw [toLower_of_not_upper h]

theorem toLower_eq_low_iff (c d : Char) (hd : d.toNat < 65) :
    (c.toLower = d) ↔ (c = d) := by
  by_cases h : 65 ≤ c.toNat ∧ c.toNat ≤ 90
  · have h1 := toNat_toLower_of_upper h
    constructor
    · intro he; rw [char_eq_iff_toNat] at he; omega
    · intro he; rw [char_eq_iff_toNat] at he; omega
  · rw [toLower_of_not_upper h]

theorem isAmp_toLower (c : Char) : isAmp c.toLower = isAmp c := by
  simp only [isAmp]
  rw [decide_eq_decide.mpr (toLower_eq_low_iff c '?' (by decide)),
    decide_eq_decide.mpr (toLower_eq_low_iff c '&' (by decide))]

theorem toLower_mem_lower {c : Char} {l : List Char} (h : c ∈ lower l) :
    c.toLower = c := by
  simp only [lower, List.mem_map] at h
  obtain ⟨d, _, rfl⟩ := h
  exact toLower_idem d

/-!
Facts about `sub1`.  The fuel argument is irrelevant as long as it bounds
the length of the list, which yields the expected unfolding equation for
`sub1` itself.
-/

theorem sub1Fuel_congr : ∀ (f g : ℕ) (l : List Char), l.length ≤ f →
    l.length ≤ g → sub1Fuel f l = sub1Fuel g l := by
  intro f
  induction f with
  | zero =>
    intro g l hf _
    rw [List.length_eq_zero.mp (Nat.le_zero.mp hf)]
    cases g <;> simp [sub1Fuel]
  | succ f ih =>
    intro g l hf hg
    match l, g with
    | [], g => cases g <;> simp [sub1Fuel]
    | c :: rest, 0 => simp at hg
    | c :: rest, g + 1 =>
      simp only [sub1Fuel]
      simp only [List.length_cons, Nat.succ_le_succ_iff] at hf hg
      by_cases hc : (isAmp c && shape rest) = true
      · rw [if_pos hc, if_pos hc]
        have hlen : ((rest.drop 4).dropWhile (fun x => !(x = '&'))).length ≤
            rest.length := by
          refine le_trans ((List.dropWhile_sublist _).length_le) ?_
          rw [List.length_drop]
          omega
        exact ih g _ (le_trans hlen hf) (le_trans hlen hg)
      · rw [if_neg hc, if_neg hc, ih g rest hf hg]

theorem sub1_nil : sub1 [] = [] := rfl

theorem sub1_cons (c : Char) (rest : List Char) :
    sub1 (c :: rest) =
      if isAmp c && shape rest then
        sub1 ((rest.drop 4).dropWhile (fun x => !(x = '&')))
      else c :: sub1 rest := by
  show sub1Fuel (rest.length + 1) (c :: rest) = _
  simp only [sub1Fuel]
  by_cases hc : (isAmp c && shape rest) = true
  · rw [if_pos hc, if_pos hc]
    refine sub1Fuel_congr _ _ _ ?_ le_rfl
    refine le_trans ((List.dropWhile_sublist _).length_le) ?_
    rw [List.length_drop]
    omega
  · rw [if_neg hc, if_neg hc]
    rfl

theorem char_le_iff_toNat {c d : Char} : c ≤ d ↔ c.toNat ≤ d.toNat := by
  rw [Char.le_def, UInt32.le_def, BitVec.le_def]
  exact Iff.rfl

theorem shape_eq_true_iff {s : List Char} : shape s = true ↔
    ∃ a b v vs, s = a :: b :: '=' :: v :: vs ∧ keyMatch a b = true ∧
      ¬ v = '&' := by
  constructor
  · intro h
    match s, h with
    | [], h => simp [shape] at h
    | [a], h => simp [shape] at h
    | [a, b], h => simp [shape] at h
    | [a, b, x], h => simp [shape] at h
    | a :: b :: x :: v :: vs, h =>
      simp only [shape, Bool.and_eq_true, Bool.not_eq_eq_eq_not,
        Bool.not_true, decide_eq_false_iff_not, decide_eq_true_eq] at h
      exact ⟨a, b, v, vs, by rw [h.1.2], h.1.1, h.2⟩
  · rintro ⟨a, b, v, vs, rfl, hk, hv⟩
    simp [shape, hk, hv]

theorem dropWhile_head_not {p : Char → Bool} :
    ∀ {l y : List Char} {c : Char}, l.dropWhile p = c :: y → p c = false := by
  intro l
  induction l with
  | nil => intro y c h; simp at h
  | cons a rest ih =>
    intro y c h
    by_cases ha : p a
    · rw [List.dropWhile_cons_of_pos ha] at h
      exact ih h
    · rw [List.dropWhile_cons_of_neg ha] at h
      cases h
      exact Bool.not_eq_true _ ▸ (by simpa using ha)

theorem sub1_of_not_hasWindow : ∀ l : List Char, hasWindow l = false →
    sub1 l = l := by
  intro l
  induction l with
  | nil => intro _; rfl
  | cons c rest ih =>
    intro h
    simp only [hasWindow, Bool.or_eq_false_iff] at h
    rw [sub1_cons, if_neg (by simp [h.1]), ih h.2]

theorem sub1_length_le : ∀ (n : ℕ) (l : List Char), l.length ≤ n →
    (sub1 l).length ≤ l.length := by
  intro n
  induction n with
  | zero =>
    intro l hl
    rw [List.length_eq_zero.mp (Nat.le_zero.mp hl)]
    simp [sub1_nil]
  | succ n ih =>
    intro l hl
    match l with
    | [] => simp [sub1_nil]
    | c :: rest =>
      rw [sub1_cons]
      simp only [List.length_cons, Nat.succ_le_succ_iff] at hl
      by_cases hc : (isAmp c && shape rest) = true
      · rw [if_pos hc]
        have h1 : ((rest.drop 4).dropWhile (fun x => !(x = '&'))).length ≤
            rest.length := by
          refine le_trans (List.dropWhile_sublist _).length_le ?_
          rw [List.length_drop]
          omega
        have := ih _ (le_trans h1 hl)
        simp only [List.length_cons]
        omega
      · rw [if_neg hc]
        simp only [List.length_cons]
        exact Nat.succ_le_succ (ih rest hl)

theorem sub1_length_lt_of_hasWindow : ∀ (n : ℕ) (l : List Char),
    l.length ≤ n → hasWindow l = true → (sub1 l).length < l.length := by
  intro n
  induction n with
  | zero =>
    intro l hl hw
    rw [List.length_eq_zero.mp (Nat.le_zero.mp hl)] at hw
    simp [hasWindow] at hw
  | succ n ih =>
    intro l hl hw
    match l with
    | [] => simp [hasWindow] at hw
    | c :: rest =>
      rw [sub1_cons]
      simp only [List.length_cons, Nat.succ_le_succ_iff] at hl
      by_cases hc : (isAmp c && shape rest) = true
      · rw [if_pos hc]
        have hsh : shape rest = true := by
          simp only [Bool.and_eq_true] at hc
          exact hc.2
        obtain ⟨a, b, v, vs, hr, _, _⟩ := shape_eq_true_iff.mp hsh
        have h1 : ((rest.drop 4).dropWhile (fun x => !(x = '&'))).length ≤
            rest.length - 4 := by
          refine le_trans (List.dropWhile_sublist _).length_le ?_
          rw [List.length_drop]
        have h2 : 4 ≤ rest.length := by rw [hr]; simp
        have := sub1_length_le n ((rest.drop 4).dropWhile (fun x => !(x = '&')))
          (by omega)
        simp only [List.length_cons]
        omega
      · rw [if_neg hc]
        simp only [hasWindow, Bool.or_eq_true] at hw
        rcases hw with hw | hw
        · exact absurd hw hc
        · simp only [List.length_cons]
          exact Nat.succ_lt_succ (ih rest hl hw)

theorem hasWindow_eq_false_of_sub1_eq {l : List Char} (h : sub1 l = l) :
    hasWindow l = false := by
  by_contra hw
  have := sub1_length_lt_of_hasWindow l.length l le_rfl
    (Bool.not_eq_false _ ▸ hw)
  rw [h] at this
  omega

theorem sub1_cons_inv : ∀ (n : ℕ) (l : List Char), l.length ≤ n →
    ∀ c s, sub1 l = c :: s → c = '&' ∨ ∃ l', l = c :: l' ∧ s = sub1 l' := by
  intro n
  induction n with
  | zero =>
    intro l hl c s h
    rw [List.length_eq_zero.mp (Nat.le_zero.mp hl)] at h
    simp [sub1_nil] at h
  | succ n ih =>
    intro l hl c s h
    match l with
    | [] => simp [sub1_nil] at h
    | x :: rest =>
      rw [sub1_cons] at h
      simp only [List.length_cons, Nat.succ_le_succ_iff] at hl
      by_cases hc : (isAmp x && shape rest) = true
      · rw [if_pos hc] at h
        rcases hXv : (rest.drop 4).dropWhile (fun x => !(x = '&')) with _ | ⟨y, ys⟩
        · rw [hXv] at h
          simp [sub1_nil] at h
        · rw [hXv] at h
          have hy' : y = '&' := by simpa using dropWhile_head_not hXv
          have hXlen : (y :: ys).length ≤ n := by
            rw [← hXv]
            refine le_trans (le_trans (List.dropWhile_sublist _).length_le ?_) hl
            rw [List.length_drop]
            omega
          rcases ih _ hXlen c s h with h1 | ⟨l', hl', _⟩
          · exact Or.inl h1
          · cases hl'
            exact Or.inl hy'
      · rw [if_neg hc] at h
        cases h
        exact Or.inr ⟨rest, rfl, rfl⟩

theorem keyMatch_fst_ne_amp {a b : Char} (h : keyMatch a b = true) :
    ¬ a = '&' := by
  simp only [keyMatch, Bool.or_eq_true, Bool.and_eq_true, decide_eq_true_eq] at h
  rcases h with (⟨rfl, h2⟩ | ⟨rfl, h2⟩) | ⟨rfl, h2⟩ <;> decide

theorem keyMatch_snd_ne_amp {a b : Char} (h : keyMatch a b = true) :
    ¬ b = '&' := by
  simp only [keyMatch, Bool.or_eq_true, Bool.and_eq_true, decide_eq_true_eq] at h
  rcases h with (⟨h2, rfl⟩ | ⟨h2, rfl⟩) | ⟨h2, rfl⟩ <;> decide

theorem shape_of_shape_sub1 {l : List Char} (h : shape (sub1 l) = true) :
    shape l = true := by
  obtain ⟨a, b, v, vs, hs, hk, hv⟩ := shape_eq_true_iff.mp h
  rcases sub1_cons_inv l.length l le_rfl a _ hs with h1 | ⟨l1, rfl, hs1⟩
  · exact absurd h1 (keyMatch_fst_ne_amp hk)
  · rcases sub1_cons_inv l1.length l1 le_rfl b _ hs1.symm with h2 | ⟨l2, rfl, hs2⟩
    · exact absurd h2 (keyMatch_snd_ne_amp hk)
    · rcases sub1_cons_inv l2.length l2 le_rfl '=' _ hs2.symm with h3 | ⟨l3, rfl, hs3⟩
      · exact absurd h3 (by decide)
      · rcases sub1_cons_inv l3.length l3 le_rfl v _ hs3.symm with h4 | ⟨l4, rfl, _⟩
        · exact absurd h4 hv
        · exact shape_eq_true_iff.mpr ⟨a, b, v, l4, rfl, hk, hv⟩

theorem hasWindow_sub1 : ∀ (n : ℕ) (l : List Char), l.length ≤ n →
    hasWindow (sub1 l) = false := by
  intro n
  induction n with
  | zero =>
    intro l hl
    rw [List.length_eq_zero.mp (Nat.le_zero.mp hl)]
    simp [sub1_nil, hasWindow]
  | succ n ih =>
    intro l hl
    match l with
    | [] => simp [sub1_nil, hasWindow]
    | c :: rest =>
      rw [sub1_cons]
      simp only [List.length_cons, Nat.succ_le_succ_iff] at hl
      by_cases hc : (isAmp c && shape rest) = true
      · rw [if_pos hc]
        refine ih _ ?_
        refine le_trans (le_trans (List.dropWhile_sublist _).length_le ?_) hl
        rw [List.length_drop]
        omega
      · rw [if_neg hc]
        simp only [hasWindow, Bool.or_eq_false_iff]
        refine ⟨?_, ih rest hl⟩
        by_cases ha : isAmp c = true
        · simp only [ha, Bool.true_and]
          by_cases hs : shape (sub1 rest) = true
          · exact absurd (by simp [ha, shape_of_shape_sub1 hs] :
              (isAmp c && shape rest) = true) hc
          · simpa using hs
        · simp only [Bool.not_eq_true] at ha
          simp [ha]

theorem sub1_idem (l : List Char) : sub1 (sub1 l) = sub1 l :=
  sub1_of_not_hasWindow _ (hasWindow_sub1 l.length l le_rfl)

/-!
Windows survive appending on the right and are reflected by prefixes, which
transfers match-freeness from `sub1`'s output to its trailing-trim by `sub2`.
-/

theorem shape_append {s : List Char} (t : List Char) (h : shape s = true) :
    shape (s ++ t) = true := by
  obtain ⟨a, b, v, vs, rfl, hk, hv⟩ := shape_eq_true_iff.mp h
  exact shape_eq_true_iff.mpr ⟨a, b, v, vs ++ t, by simp, hk, hv⟩

theorem hasWindow_append {l : List Char} (t : List Char)
    (h : hasWindow l = true) : hasWindow (l ++ t) = true := by
  induction l with
  | nil => simp [hasWindow] at h
  | cons c rest ih =>
    simp only [hasWindow, Bool.or_eq_true, Bool.and_eq_true] at h ⊢
    rcases h with ⟨h1, h2⟩ | h
    · exact Or.inl ⟨h1, shape_append t h2⟩
    · exact Or.inr (ih h)

theorem hasWindow_of_take {l : List Char} {k : ℕ}
    (h : hasWindow (l.take k) = true) : hasWindow l = true := by
  have := hasWindow_append (l.drop k) h
  rwa [List.take_append_drop] at this

theorem rstripAmps_append_exists (l : List Char) :
    ∃ t, l = rstripAmps l ++ t := by
  obtain ⟨t, ht⟩ := List.dropWhile_suffix (l := l.reverse) isAmp
  refine ⟨t.reverse, ?_⟩
  have := congrArg List.reverse ht
  simpa [rstripAmps] using this.symm

theorem rstripAmps_eq_take (l : List Char) :
    rstripAmps l = l.take (rstripAmps l).length := by
  obtain ⟨t, ht⟩ := rstripAmps_append_exists l
  conv_lhs => rw [show rstripAmps l = (rstripAmps l ++ t).take (rstripAmps l).length by
    rw [List.take_append_eq_append_take]
    simp]
  rw [← ht]

theorem sub1_rstripAmps_of_fixed {l : List Char} (h : sub1 l = l) :
    sub1 (rstripAmps l) = rstripAmps l := by
  refine sub1_of_not_hasWindow _ ?_
  by_contra hw
  have hw' : hasWindow (rstripAmps l) = true := Bool.not_eq_false _ ▸ hw
  rw [rstripAmps_eq_take] at hw'
  have := hasWindow_of_take hw'
  rw [hasWindow_eq_false_of_sub1_eq h] at this
  cases this

theorem rstripAmps_idem (l : List Char) :
    rstripAmps (rstripAmps l) = rstripAmps l := by
  have key : ∀ m : List Char, m.dropWhile isAmp = (m.dropWhile isAmp).dropWhile isAmp := by
    intro m
    induction m with
    | nil => rfl
    | cons c rest ih =>
      by_cases hc : isAmp c
      · rw [List.dropWhile_cons_of_pos hc]
        exact ih
      · rw [List.dropWhile_cons_of_neg hc, List.dropWhile_cons_of_neg hc]
  simp only [rstripAmps, List.reverse_reverse]
  rw [← key]

/-!
Characters of the intermediate strings: `sub1`, `rstripAmps` and `strip`
only delete characters, so character-level properties are inherited.
-/

theorem mem_sub1 : ∀ (n : ℕ) (l : List Char), l.length ≤ n →
    ∀ c ∈ sub1 l, c ∈ l := by
  intro n
  induction n with
  | zero =>
    intro l hl c hc
    rw [List.length_eq_zero.mp (Nat.le_zero.mp hl)] at hc
    simp [sub1_nil] at hc
  | succ n ih =>
    intro l hl c hc
    match l with
    | [] => simp [sub1_nil] at hc
    | x :: rest =>
      rw [sub1_cons] at hc
      simp only [List.length_cons, Nat.succ_le_succ_iff] at hl
      by_cases hx : (isAmp x && shape rest) = true
      · rw [if_pos hx] at hc
        have hlen : ((rest.drop 4).dropWhile (fun y => !(y = '&'))).length ≤ n := by
          refine le_trans (le_trans (List.dropWhile_sublist _).length_le ?_) hl
          rw [List.length_drop]
          omega
        have := ih _ hlen c hc
        have h2 := List.dropWhile_subset (l := rest.drop 4) (fun y => !(y = '&')) this
        exact List.mem_cons_of_mem x (List.drop_subset _ rest h2)
      · rw [if_neg hx] at hc
        rcases List.mem_cons.mp hc with rfl | hc
        · exact List.mem_cons_self _ _
        · exact List.mem_cons_of_mem x (ih rest hl c hc)

theorem mem_rstripAmps {l : List Char} {c : Char} (h : c ∈ rstripAmps l) :
    c ∈ l := by
  obtain ⟨t, ht⟩ := rstripAmps_append_exists l
  rw [ht]
  exact List.mem_append_left _ h

theorem mem_strip {l : List Char} {c : Char} (h : c ∈ strip l) : c ∈ l := by
  simp only [strip, List.mem_reverse] at h
  have h1 := List.dropWhile_subset (l := (l.dropWhile isSpace).reverse) isSpace h
  rw [List.mem_reverse] at h1
  exact List.dropWhile_subset _ h1

theorem strip_of_no_space {l : List Char} (h : ∀ c ∈ l, isSpace c = false) :
    strip l = l := by
  have key : ∀ m : List Char, (∀ c ∈ m, isSpace c = false) →
      m.dropWhile isSpace = m := by
    intro m hm
    match m with
    | [] => rfl
    | c :: rest =>
      rw [List.dropWhile_cons_of_neg]
      simp [hm c (List.mem_cons_self _ _)]
  rw [strip, key l h, key _ (by intro c hc; exact h c (List.mem_reverse.mp hc)),
    List.reverse_reverse]

theorem sub2_of_no_newline {l : List Char} (h : ∀ c ∈ l, ¬ c = '\n') :
    sub2 l = rstripAmps l := by
  unfold sub2
  split
  · rename_i heq
    exact absurd rfl (h '\n' (List.mem_of_getLast?_eq_some heq))
  · rfl

theorem lower_append (a b : List Char) :
    lower (a ++ b) = lower a ++ lower b := by
  simp [lower]

theorem lower_idem (l : List Char) : lower (lower l) = lower l := by
  simp only [lower, List.map_map]
  exact List.map_congr_left (fun c _ => toLower_idem c)

theorem lower_eq_self {l : List Char} (h : ∀ c ∈ l, c.toLower = c) :
    lower l = l := by
  simp only [lower]
  exact List.map_congr_left (fun c hc => h c hc) |>.trans (List.map_id l)

/-!
Side conditions satisfied by the characters of info hashes and of the
constant pieces of the canonical magnet form.
-/

theorem char_props_of_ranges {c : Char}
    (h : (97 ≤ c.toNat ∧ c.toNat ≤ 122) ∨ (48 ≤ c.toNat ∧ c.toNat ≤ 57)) :
    isSpace c = false ∧ isAmp c = false ∧ c.toLower = c ∧ ¬ c = '\n' := by
  refine ⟨?_, ?_, ?_, ?_⟩
  · simp only [isSpace, Bool.or_eq_false_iff, decide_eq_false_iff_not]
    refine ⟨⟨⟨⟨⟨?_, ?_⟩, ?_⟩, ?_⟩, ?_⟩, ?_⟩ <;>
      · intro he
        rw [he] at h
        revert h
        decide
  · simp only [isAmp, Bool.or_eq_false_iff, decide_eq_false_iff_not]
    refine ⟨?_, ?_⟩ <;>
      · intro he
        rw [he] at h
        revert h
        decide
  · exact toLower_of_not_upper (by omega)
  · intro he
    rw [he] at h
    revert h
    decide

theorem isHexLower_ranges {c : Char} (h : isHexLower c = true) :
    (97 ≤ c.toNat ∧ c.toNat ≤ 122) ∨ (48 ≤ c.toNat ∧ c.toNat ≤ 57) := by
  simp only [isHexLower, Bool.or_eq_true, Bool.and_eq_true, decide_eq_true_eq,
    char_le_iff_toNat] at h
  have e1 : Char.toNat 'a' = 97 := rfl
  have e2 : Char.toNat 'f' = 102 := rfl
  have e3 : Char.toNat '0' = 48 := rfl
  have e4 : Char.toNat '9' = 57 := rfl
  rcases h with ⟨h1, h2⟩ | ⟨h1, h2⟩
  · left
    omega
  · right
    omega

theorem isB32Lower_ranges {c : Char} (h : isB32Lower c = true) :
    (97 ≤ c.toNat ∧ c.toNat ≤ 122) ∨ (48 ≤ c.toNat ∧ c.toNat ≤ 57) := by
  simp only [isB32Lower, Bool.or_eq_true, Bool.and_eq_true, decide_eq_true_eq,
    char_le_iff_toNat] at h
  have e1 : Char.toNat 'a' = 97 := rfl
  have e2 : Char.toNat 'z' = 122 := rfl
  have e3 : Char.toNat '2' = 50 := rfl
  have e4 : Char.toNat '7' = 55 := rfl
  rcases h with ⟨h1, h2⟩ | ⟨h1, h2⟩
  · left
    omega
  · right
    omega

theorem isHashChar_props {c : Char} (h : isHashChar c = true) :
    isSpace c = false ∧ isAmp c = false ∧ c.toLower = c ∧ ¬ c = '\n' := by
  simp only [isHashChar, Bool.or_eq_true] at h
  rcases h with h | h
  · exact char_props_of_ranges (isHexLower_ranges h)
  · exact char_props_of_ranges (isB32Lower_ranges h)

theorem hashAt_chars {l h : List Char} (hh : hashAt l = some h) :
    h ≠ [] ∧ ∀ c ∈ h, isHashChar c = true := by
  unfold hashAt at hh
  by_cases h1 : ((l.take 40).length = 40 && (l.take 40).all isHexLower) = true
  · rw [if_pos h1] at hh
    cases hh
    simp only [Bool.and_eq_true, List.all_eq_true, decide_eq_true_eq] at h1
    refine ⟨by intro he; rw [he] at h1; simp at h1, ?_⟩
    intro c hc
    simp only [isHashChar, Bool.or_eq_true]
    exact Or.inl (h1.2 c hc)
  · rw [if_neg h1] at hh
    by_cases h2 : ((l.take 32).length = 32 && (l.take 32).all isB32Lower) = true
    · rw [if_pos h2] at hh
      cases hh
      simp only [Bool.and_eq_true, List.all_eq_true, decide_eq_true_eq] at h2
      refine ⟨by intro he; rw [he] at h2; simp at h2, ?_⟩
      intro c hc
      simp only [isHashChar, Bool.or_eq_true]
      exact Or.inr (h2.2 c hc)
    · rw [if_neg h2] at hh
      cases hh

theorem magnetSearch_chars : ∀ {l h : List Char}, magnetSearch l = some h →
    h ≠ [] ∧ ∀ c ∈ h, isHashChar c = true := by
  intro l
  induction l with
  | nil => intro h hh; simp [magnetSearch] at hh
  | cons c rest ih =>
    intro h hh
    rw [magnetSearch] at hh
    by_cases h1 : (isAmp c && decide (rest.take 12 = "xt=urn:btih:".data)) = true
    · rw [if_pos h1] at hh
      match h2 : hashAt (rest.drop 12) with
      | some g =>
        rw [h2] at hh
        cases hh
        exact hashAt_chars h2
      | none =>
        rw [h2] at hh
        exact ih hh
    · rw [if_neg h1] at hh
      exact ih hh

theorem magnetSearch_none_of_no_amp : ∀ {l : List Char},
    (∀ c ∈ l, isAmp c = false) → magnetSearch l = none := by
  intro l
  induction l with
  | nil => intro _; rfl
  | cons c rest ih =>
    intro h
    rw [magnetSearch, if_neg (by simp [h c (List.mem_cons_self _ _)]),
      ih (fun d hd => h d (List.mem_cons_of_mem c hd))]

theorem hasWindow_false_of_no_amp : ∀ {l : List Char},
    (∀ c ∈ l, isAmp c = false) → hasWindow l = false := by
  intro l
  induction l with
  | nil => intro _; rfl
  | cons c rest ih =>
    intro h
    simp only [hasWindow, Bool.or_eq_false_iff]
    exact ⟨by simp [h c (List.mem_cons_self _ _)],
      ih (fun d hd => h d (List.mem_cons_of_mem c hd))⟩

theorem rstripAmps_of_no_amp {l : List Char}
    (h : ∀ c ∈ l, isAmp c = false) : rstripAmps l = l := by
  have key : l.reverse.dropWhile isAmp = l.reverse := by
    match hr : l.reverse with
    | [] => rfl
    | c :: rest =>
      rw [List.dropWhile_cons_of_neg]
      simp only [Bool.not_eq_true]
      exact h c (by rw [← List.mem_reverse, hr]; exact List.mem_cons_self _ _)
  rw [rstripAmps, key, List.reverse_reverse]

/-- A string on which every stage of the normalizer is the identity and the
magnet search finds nothing is a fixed point of the normalizer. -/
theorem normalize_eq_self_of_clean {u : List Char}
    (h1 : lower u = u) (h2 : strip u = u) (h3 : sub1 u = u) (h4 : sub2 u = u)
    (h5 : u.take 7 = "magnet:".data → magnetSearch u = none) :
    normalize_tracker_url u = u := by
  simp only [normalize_tracker_url]
  rw [h1, h2, h3, h4]
  by_cases hm : u.take 7 = "magnet:".data
  · rw [if_pos hm, h5 hm]
  · rw [if_neg hm]

theorem isSpace_ne_newline {c : Char} (h : isSpace c = false) : ¬ c = '\n' := by
  intro he
  rw [he] at h
  simp [isSpace] at h

theorem magnet_btih_chars : ∀ c ∈ "magnet:btih:".data,
    isAmp c = false ∧ isSpace c = false ∧ c.toLower = c := by decide

theorem normalize_idem_of_no_space (x : List Char)
    (hx : ∀ c ∈ x, isSpace c = false) :
    normalize_tracker_url (normalize_tracker_url x) = normalize_tracker_url x := by
  have hlw : ∀ c ∈ lower x, isSpace c = false := by
    intro c hc
    simp only [lower, List.mem_map] at hc
    obtain ⟨d, hd, rfl⟩ := hc
    rw [isSpace_toLower]
    exact hx d hd
  have hstrip : strip (lower x) = lower x := strip_of_no_space hlw
  have hz : ∀ c ∈ sub1 (lower x), c ∈ lower x :=
    mem_sub1 (lower x).length (lower x) le_rfl
  have hznl : ∀ c ∈ sub1 (lower x), ¬ c = '\n' :=
    fun c hc => isSpace_ne_newline (hlw c (hz c hc))
  have hsub2 : sub2 (sub1 (lower x)) = rstripAmps (sub1 (lower x)) :=
    sub2_of_no_newline hznl
  have huw : ∀ c ∈ rstripAmps (sub1 (lower x)), c ∈ lower x :=
    fun c hc => hz c (mem_rstripAmps hc)
  have husp : ∀ c ∈ rstripAmps (sub1 (lower x)), isSpace c = false :=
    fun c hc => hlw c (huw c hc)
  have hu1 : lower (rstripAmps (sub1 (lower x))) = rstripAmps (sub1 (lower x)) :=
    lower_eq_self (fun c hc => toLower_mem_lower (huw c hc))
  have hu2 : strip (rstripAmps (sub1 (lower x))) = rstripAmps (sub1 (lower x)) :=
    strip_of_no_space husp
  have hu3 : sub1 (rstripAmps (sub1 (lower x))) = rstripAmps (sub1 (lower x)) :=
    sub1_rstripAmps_of_fixed (sub1_idem (lower x))
  have hu4 : sub2 (rstripAmps (sub1 (lower x))) = rstripAmps (sub1 (lower x)) := by
    rw [sub2_of_no_newline (fun c hc => isSpace_ne_newline (husp c hc)),
      rstripAmps_idem]
  by_cases hm : (rstripAmps (sub1 (lower x))).take 7 = "magnet:".data
  · rcases hms : magnetSearch (rstripAmps (sub1 (lower x))) with _ | h
    · have htop : normalize_tracker_url x = rstripAmps (sub1 (lower x)) := by
        simp only [normalize_tracker_url]
        rw [hstrip, hsub2, if_pos hm, hms]
      rw [htop]
      exact normalize_eq_self_of_clean hu1 hu2 hu3 hu4 (fun _ => hms)
    · obtain ⟨hne, hchars⟩ := magnetSearch_chars hms
      have hfix : ∀ c ∈ h, c.toLower = c :=
        fun c hc => (isHashChar_props (hchars c hc)).2.2.1
      have hlh : lower h = h := lower_eq_self hfix
      have htop : normalize_tracker_url x = "magnet:btih:".data ++ h := by
        simp only [normalize_tracker_url]
        rw [hstrip, hsub2, if_pos hm, hms]
        show "magnet:btih:".data ++ lower h = "magnet:btih:".data ++ h
        rw [hlh]
      rw [htop]
      have hyAmp : ∀ c ∈ "magnet:btih:".data ++ h, isAmp c = false := by
        intro c hc
        rcases List.mem_append.mp hc with hc | hc
        · exact (magnet_btih_chars c hc).1
        · exact (isHashChar_props (hchars c hc)).2.1
      have hySp : ∀ c ∈ "magnet:btih:".data ++ h, isSpace c = false := by
        intro c hc
        rcases List.mem_append.mp hc with hc | hc
        · exact (magnet_btih_chars c hc).2.1
        · exact (isHashChar_props (hchars c hc)).1
      have hyFix : ∀ c ∈ "magnet:btih:".data ++ h, c.toLower = c := by
        intro c hc
        rcases List.mem_append.mp hc with hc | hc
        · exact (magnet_btih_chars c hc).2.2
        · exact hfix c hc
      refine normalize_eq_self_of_clean (lower_eq_self hyFix)
        (strip_of_no_space hySp)
        (sub1_of_not_hasWindow _ (hasWindow_false_of_no_amp hyAmp)) ?_ ?_
      · rw [sub2_of_no_newline (fun c hc => isSpace_ne_newline (hySp c hc)),
          rstripAmps_of_no_amp hyAmp]
      · intro _
        exact magnetSearch_none_of_no_amp hyAmp
  · have htop : normalize_tracker_url x = rstripAmps (sub1 (lower x)) := by
      simp only [normalize_tracker_url]
      rw [hstrip, hsub2, if_neg hm]
    rw [htop]
    refine normalize_eq_self_of_clean hu1 hu2 hu3 hu4 (fun hm' => absurd hm' hm)

/-!
Stepping lemmas used to push `sub1`, `rstripAmps` and `magnetSearch` through
the concrete pieces of a magnet URI.
-/

theorem sub1_append_of_no_amp {A : List Char} (B : List Char)
    (hA : ∀ c ∈ A, isAmp c = false) : sub1 (A ++ B) = A ++ sub1 B := by
  induction A with
  | nil => simp
  | cons c A ih =>
    rw [List.cons_append, sub1_cons,
      if_neg (by simp [hA c (List.mem_cons_self _ _)]),
      ih (fun d hd => hA d (List.mem_cons_of_mem c hd)), List.cons_append]

theorem sub1_cons_of_not_shape (c : Char) {rest : List Char}
    (h : shape rest = false) : sub1 (c :: rest) = c :: sub1 rest := by
  rw [sub1_cons, if_neg (by simp [h])]

theorem shape_xt (l : List Char) : shape ('x' :: 't' :: l) = false := by
  match l with
  | [] => rfl
  | [a] => rfl
  | a :: b :: rest => simp [shape, keyMatch]

theorem sub1_amp_headed {l : List Char} (hl : l = [] ∨ ∃ t, l = '&' :: t) :
    sub1 l = [] ∨ ∃ t, sub1 l = '&' :: t := by
  rcases hsl : sub1 l with _ | ⟨c, s⟩
  · exact Or.inl rfl
  · right
    rcases sub1_cons_inv l.length l le_rfl c s hsl with rfl | ⟨l', rfl, _⟩
    · exact ⟨s, rfl⟩
    · rcases hl with he | ⟨t, ht⟩
      · simp at he
      · obtain ⟨rfl, -⟩ := List.cons.injEq .. ▸ ht
        exact ⟨s, rfl⟩

theorem take_amp_headed {l : List Char} (hl : l = [] ∨ ∃ t, l = '&' :: t)
    (k : ℕ) : l.take k = [] ∨ ∃ t', l.take k = '&' :: t' := by
  rcases hl with rfl | ⟨t, rfl⟩
  · simp
  · cases k with
    | zero => simp
    | succ k => exact Or.inr ⟨t.take k, by simp⟩

theorem rstripAmps_append_of_last {A : List Char} (B : List Char)
    (hA : A ≠ []) (hc : isAmp (A.getLast hA) = false) :
    rstripAmps (A ++ B) = A ++ rstripAmps B := by
  have hdec : A.dropLast ++ [A.getLast hA] = A := List.dropLast_append_getLast hA
  have hrev : (A ++ B).reverse = B.reverse ++ A.getLast hA :: A.dropLast.reverse := by
    conv_lhs => rw [← hdec]
    simp
  rw [rstripAmps, hrev, List.dropWhile_append]
  by_cases he : (B.reverse.dropWhile isAmp).isEmpty = true
  · rw [if_pos he, List.dropWhile_cons_of_neg (by simp [hc])]
    have : rstripAmps B = [] := by
      rw [rstripAmps, List.isEmpty_iff.mp he, List.reverse_nil]
    rw [this, List.append_nil, List.reverse_cons, List.reverse_reverse, hdec]
  · rw [if_neg he]
    rw [List.reverse_append, List.reverse_cons, List.reverse_reverse, hdec]
    rw [rstripAmps]

theorem magnetSearch_append_left {A : List Char} (B : List Char)
    (hA : ∀ c ∈ A, isAmp c = false) :
    magnetSearch (A ++ B) = magnetSearch B := by
  induction A with
  | nil => simp
  | cons c A ih =>
    rw [List.cons_append, magnetSearch,
      if_neg (by simp [hA c (List.mem_cons_self _ _)])]
    exact ih (fun d hd => hA d (List.mem_cons_of_mem c hd))

theorem magnetSearch_hit {B : List Char} (h12 : B.take 12 = "xt=urn:btih:".data)
    {g : List Char} (hg : hashAt (B.drop 12) = some g) :
    magnetSearch ('?' :: B) = some g := by
  rw [magnetSearch, if_pos (by simp [isAmp, h12]), hg]

theorem hashAt_hex {lh : List Char} (S : List Char) (hlen : lh.length = 40)
    (hall : lh.all isHexLower = true) : hashAt (lh ++ S) = some lh := by
  have ht : (lh ++ S).take 40 = lh := by
    rw [List.take_append_eq_append_take, hlen, Nat.sub_self, List.take_zero,
      List.append_nil]
    exact List.take_of_length_le (le_of_eq hlen)
  simp only [hashAt, ht]
  rw [if_pos (by simp [hlen, hall])]

theorem hashAt_b32 {lh : List Char} (S : List Char) (hlen : lh.length = 32)
    (hall : lh.all isB32Lower = true) (hS : S = [] ∨ ∃ t, S = '&' :: t) :
    hashAt (lh ++ S) = some lh := by
  have ht32 : (lh ++ S).take 32 = lh := by
    rw [List.take_append_eq_append_take, hlen, Nat.sub_self, List.take_zero,
      List.append_nil]
    exact List.take_of_length_le (le_of_eq hlen)
  have hfail : (((lh ++ S).take 40).length = 40 &&
      ((lh ++ S).take 40).all isHexLower) = false := by
    have ht40 : (lh ++ S).take 40 = lh ++ S.take 8 := by
      rw [List.take_append_eq_append_take, hlen,
        List.take_of_length_le (by omega)]
    rw [ht40]
    rcases take_amp_headed hS 8 with h8 | ⟨t', h8⟩
    · rw [h8, List.append_nil]
      simp [hlen]
    · rw [h8]
      have hamp : ('&' ∈ lh ++ '&' :: t') := by simp
      have : (lh ++ '&' :: t').all isHexLower = false := by
        rcases Bool.eq_false_or_eq_true ((lh ++ '&' :: t').all isHexLower) with h | h
        · exfalso
          rw [List.all_eq_true] at h
          have := h '&' hamp
          simp [isHexLower] at this
        · exact h
      simp [this]
  simp only [hashAt]
  rw [if_neg (by simp [hfail] at *; exact hfail), ht32]
  rw [if_pos (by simp [hlen, hall])]

theorem lower_all_isHexLower {h : List Char} (hall : h.all isHexCI = true) :
    (lower h).all isHexLower = true := by
  rw [List.all_eq_true] at hall ⊢
  intro c hc
  simp only [lower, List.mem_map] at hc
  obtain ⟨d, hd, rfl⟩ := hc
  exact hall d hd

theorem lower_all_isB32Lower {h : List Char} (hall : h.all isB32CI = true) :
    (lower h).all isB32Lower = true := by
  rw [List.all_eq_true] at hall ⊢
  intro c hc
  simp only [lower, List.mem_map] at hc
  obtain ⟨d, hd, rfl⟩ := hc
  exact hall d hd

theorem magnet_canonical_aux (h rest : List Char)
    (hh : (h.length = 40 ∧ h.all isHexCI = true) ∨
      (h.length = 32 ∧ h.all isB32CI = true))
    (hr1 : rest = [] ∨ ∃ r, rest = '&' :: r)
    (hr2 : ∀ c ∈ rest, isSpace c = false) :
    normalize_tracker_url ("magnet:?xt=urn:btih:".data ++ h ++ rest)
      = "magnet:btih:".data ++ lower h := by
  have hlh_chars : ∀ c ∈ lower h, isHashChar c = true := by
    intro c hc
    simp only [lower, List.mem_map] at hc
    obtain ⟨d, hd, rfl⟩ := hc
    simp only [isHashChar, Bool.or_eq_true]
    rcases hh with ⟨_, hall⟩ | ⟨_, hall⟩
    · rw [List.all_eq_true] at hall
      exact Or.inl (hall d hd)
    · rw [List.all_eq_true] at hall
      exact Or.inr (hall d hd)
  have hlh_ne : lower h ≠ [] := by
    rcases hh with ⟨hl, _⟩ | ⟨hl, _⟩ <;>
      · intro he
        have := congrArg List.length he
        simp [lower, hl] at this
  have hlrest_sp : ∀ c ∈ lower rest, isSpace c = false := by
    intro c hc
    simp only [lower, List.mem_map] at hc
    obtain ⟨d, hd, rfl⟩ := hc
    rw [isSpace_toLower]
    exact hr2 d hd
  have hlrest_head : lower rest = [] ∨ ∃ t, lower rest = '&' :: t := by
    rcases hr1 with rfl | ⟨r, rfl⟩
    · exact Or.inl rfl
    · exact Or.inr ⟨lower r, rfl⟩
  have hlow : lower ("magnet:?xt=urn:btih:".data ++ h ++ rest) =
      "magnet:".data ++ '?' ::
        ("xt=urn:btih:".data ++ (lower h ++ lower rest)) := by
    rw [lower_append, lower_append,
      (by decide : lower "magnet:?xt=urn:btih:".data =
        "magnet:?xt=urn:btih:".data)]
    simp [List.append_assoc]
  have hsp_all : ∀ c ∈ "magnet:".data ++ '?' ::
      ("xt=urn:btih:".data ++ (lower h ++ lower rest)), isSpace c = false := by
    intro c hc
    rcases List.mem_append.mp hc with hc | hc
    · exact (by decide : ∀ c ∈ "magnet:".data, isSpace c = false) c hc
    · rcases List.mem_cons.mp hc with rfl | hc
      · decide
      · rcases List.mem_append.mp hc with hc | hc
        · exact (by decide : ∀ c ∈ "xt=urn:btih:".data, isSpace c = false) c hc
        · rcases List.mem_append.mp hc with hc | hc
          · exact (isHashChar_props (hlh_chars c hc)).1
          · exact hlrest_sp c hc
  have hAmpA : ∀ c ∈ "magnet:".data, isAmp c = false := by decide
  have hAmp12lh : ∀ c ∈ "xt=urn:btih:".data ++ lower h, isAmp c = false := by
    intro c hc
    rcases List.mem_append.mp hc with hc | hc
    · exact (by decide : ∀ c ∈ "xt=urn:btih:".data, isAmp c = false) c hc
    · exact (isHashChar_props (hlh_chars c hc)).2.1
  have hsub1 : sub1 ("magnet:".data ++ '?' ::
        ("xt=urn:btih:".data ++ (lower h ++ lower rest))) =
      "magnet:".data ++ '?' ::
        (("xt=urn:btih:".data ++ lower h) ++ sub1 (lower rest)) := by
    rw [sub1_append_of_no_amp _ hAmpA]
    congr 1
    have hx : "xt=urn:btih:".data ++ (lower h ++ lower rest) =
        'x' :: 't' :: ("=urn:btih:".data ++ (lower h ++ lower rest)) := rfl
    rw [hx, sub1_cons_of_not_shape _ (shape_xt _), ← hx]
    congr 1
    rw [show "xt=urn:btih:".data ++ (lower h ++ lower rest) =
      ("xt=urn:btih:".data ++ lower h) ++ lower rest from by
        simp [List.append_assoc]]
    exact sub1_append_of_no_amp _ hAmp12lh
  have hS := sub1_amp_headed hlrest_head
  have hassoc : "magnet:".data ++ '?' ::
        (("xt=urn:btih:".data ++ lower h) ++ sub1 (lower rest)) =
      ("magnet:?xt=urn:btih:".data ++ lower h) ++ sub1 (lower rest) := by
    simp [List.append_assoc]
  have hnl : ∀ c ∈ ("magnet:?xt=urn:btih:".data ++ lower h) ++ sub1 (lower rest),
      ¬ c = '\n' := by
    intro c hc
    rcases List.mem_append.mp hc with hc | hc
    · rcases List.mem_append.mp hc with hc | hc
      · exact (by decide : ∀ c ∈ "magnet:?xt=urn:btih:".data, ¬ c = '\n') c hc
      · exact isSpace_ne_newline (isHashChar_props (hlh_chars c hc)).1
    · have := mem_sub1 (lower rest).length (lower rest) le_rfl c hc
      exact isSpace_ne_newline (hlrest_sp c this)
  have hA'ne : "magnet:?xt=urn:btih:".data ++ lower h ≠ [] := by
    simp
  have hlast : isAmp (("magnet:?xt=urn:btih:".data ++ lower h).getLast hA'ne) =
      false := by
    rw [List.getLast_append_of_ne_nil hlh_ne]
    exact (isHashChar_props (hlh_chars _ (List.getLast_mem hlh_ne))).2.1
  have hsub2 : sub2 (("magnet:?xt=urn:btih:".data ++ lower h) ++
        sub1 (lower rest)) =
      ("magnet:?xt=urn:btih:".data ++ lower h) ++
        rstripAmps (sub1 (lower rest)) := by
    rw [sub2_of_no_newline hnl, rstripAmps_append_of_last _ hA'ne hlast]
  have hS' : rstripAmps (sub1 (lower rest)) = [] ∨
      ∃ t, rstripAmps (sub1 (lower rest)) = '&' :: t := by
    rw [rstripAmps_eq_take]
    exact take_amp_headed hS _
  have hu_form : ("magnet:?xt=urn:btih:".data ++ lower h) ++
        rstripAmps (sub1 (lower rest)) =
      "magnet:".data ++ '?' :: ("xt=urn:btih:".data ++
        (lower h ++ rstripAmps (sub1 (lower rest)))) := by
    simp [List.append_assoc]
  have htake : (("magnet:?xt=urn:btih:".data ++ lower h) ++
      rstripAmps (sub1 (lower rest))).take 7 = "magnet:".data := by
    rw [show "magnet:?xt=urn:btih:".data =
      "magnet:".data ++ "?xt=urn:btih:".data from by decide]
    rw [List.append_assoc, List.append_assoc,
      List.take_left' (by decide : ("magnet:".data).length = 7)]
  have hhash : hashAt (lower h ++ rstripAmps (sub1 (lower rest))) =
      some (lower h) := by
    rcases hh with ⟨hl, hall⟩ | ⟨hl, hall⟩
    · exact hashAt_hex _ (by simp [lower, hl]) (lower_all_isHexLower hall)
    · exact hashAt_b32 _ (by simp [lower, hl]) (lower_all_isB32Lower hall) hS'
  have hsearch : magnetSearch (("magnet:?xt=urn:btih:".data ++ lower h) ++
      rstripAmps (sub1 (lower rest))) = some (lower h) := by
    rw [hu_form, magnetSearch_append_left _ hAmpA]
    refine magnetSearch_hit ?_ ?_
    · exact List.take_left' (by decide : ("xt=urn:btih:".data).length = 12)
    · rw [List.drop_left' (by decide : ("xt=urn:btih:".data).length = 12)]
      exact hhash
  simp only [normalize_tracker_url]
  rw [hlow, strip_of_no_space hsp_all, hsub1, hassoc, hsub2, if_pos htake,
    hsearch]
  show "magnet:btih:".data ++ lower (lower h) = "magnet:btih:".data ++ lower h
  rw [lower_idem]

/-!
Helpers for the cached-normalizer claim: any cache whose entries map a key
to its normalized form keeps that invariant and answers exactly as the
uncached normalizer.
-/

theorem runCached_correct (urls : List (List Char)) :
    ∀ cache, (∀ p ∈ cache, p.2 = normalize_tracker_url p.1) →
      (runCached urls cache).1 = urls.map normalize_tracker_url ∧
      ∀ p ∈ (runCached urls cache).2, p.2 = normalize_tracker_url p.1 := by
  induction urls with
  | nil => intro cache hc; exact ⟨rfl, hc⟩
  | cons u us ih =>
    intro cache hc
    have hstep : (normalize_tracker_url_cached cache u).1 =
        normalize_tracker_url u ∧
        ∀ p ∈ (normalize_tracker_url_cached cache u).2,
          p.2 = normalize_tracker_url p.1 := by
      rcases hf : cache.find? (fun p => p.1 = u) with _ | p
      · constructor
        · simp only [normalize_tracker_url_cached, hf]
        · intro q hq
          simp only [normalize_tracker_url_cached, hf] at hq
          have hq' : q ∈ (u, normalize_tracker_url u) :: cache :=
            List.take_subset _ _ hq
          rcases List.mem_cons.mp hq' with rfl | hq''
          · rfl
          · exact hc q hq''
      · have hkey := List.find?_some hf
        have hmem : p ∈ cache := List.mem_of_find?_eq_some hf
        have hpu : p.1 = u := of_decide_eq_true hkey
        simp only [normalize_tracker_url_cached, hf]
        refine ⟨by rw [hc p hmem, hpu], ?_⟩
        intro q hq
        rcases List.mem_cons.mp hq with hq0 | hq'
        · rw [hq0]
          exact hc p hmem
        · exact hc q (List.mem_of_mem_filter hq')
    have hrest := ih (normalize_tracker_url_cached cache u).2 hstep.2
    refine ⟨?_, hrest.2⟩
    show (normalize_tracker_url_cached cache u).1 ::
      (runCached us (normalize_tracker_url_cached cache u).2).1 = _
    rw [hstep.1, hrest.1, List.map_cons]

/-- C6: every constructed `ValidationResult` populates exactly one of
`response_time` and `error`: the response time is present exactly when the
result is alive and the error exactly when it is not, so no result has both
populated or both absent.  (The probes constructing results are modelled
from the spec, as they are not under `src/`.) -/
theorem c6_validation_result_exactly_one (url : List Char) (o : ProbeOutcome)
    (tracker_type : List Char) (now : ℚ) :
    ((mkValidationResult url o tracker_type now).response_time.isSome = true ↔
      (mkValidationResult url o tracker_type now).alive = true) ∧
    ((mkValidationResult url o tracker_type now).error.isSome = true ↔
      ¬ (mkValidationResult url o tracker_type now).alive = true) ∧
    ¬ ((mkValidationResult url o tracker_type now).response_time.isSome = true ∧
      (mkValidationResult url o tracker_type now).error.isSome = true) ∧
    ((mkValidationResult url o tracker_type now).response_time.isSome = true ∨
      (mkValidationResult url o tracker_type now).error.isSome = true) := by
  cases o <;> simp [mkValidationResult]

/-- C6 witness at a concrete probe outcome. -/
theorem c6_validation_result_exactly_one_witness :
    ((mkValidationResult "udp://a.example".data (ProbeOutcome.success 1)
        "udp".data 0).response_time.isSome = true ↔
      (mkValidationResult "udp://a.example".data (ProbeOutcome.success 1)
        "udp".data 0).alive = true) ∧
    ((mkValidationResult "udp://a.example".data (ProbeOutcome.success 1)
        "udp".data 0).error.isSome = true ↔
      ¬ (mkValidationResult "udp://a.example".data (ProbeOutcome.success 1)
        "udp".data 0).alive = true) ∧
    ¬ ((mkValidationResult "udp://a.example".data (ProbeOutcome.success 1)
        "udp".data 0).response_time.isSome = true ∧
      (mkValidationResult "udp://a.example".data (ProbeOutcome.success 1)
        "udp".data 0).error.isSome = true) ∧
    ((mkValidationResult "udp://a.example".data (ProbeOutcome.success 1)
        "udp".data 0).response_time.isSome = true ∨
      (mkValidationResult "udp://a.example".data (ProbeOutcome.success 1)
        "udp".data 0).error.isSome = true) :=
  c6_validation_result_exactly_one "udp://a.example".data
    (ProbeOutcome.success 1) "udp".data 0

/-- C8: `sanitize_tracker_url` never raises and returns either the input
unchanged or nothing; it returns the input unchanged exactly when the URL
parses with a scheme in `{http, https, udp}` and a non-empty hostname. -/
theorem c8_sanitize_characterization (url : List Char) :
    (sanitize_tracker_url url = some url ∨ sanitize_tracker_url url = none) ∧
    (sanitize_tracker_url url = some url ↔
      ∃ scheme hostname, urlparse url = Except.ok (scheme, some hostname) ∧
        (scheme = "http".data ∨ scheme = "https".data ∨
          scheme = "udp".data)) := by
  rcases hp : urlparse url with e | ⟨scheme, hostname⟩
  · have heq : sanitize_tracker_url url = none := by
      unfold sanitize_tracker_url
      rw [hp]
    refine ⟨Or.inr heq, ?_⟩
    constructor
    · intro h
      rw [heq] at h
      cases h
    · rintro ⟨s, ho, hok, -⟩
      cases hok
  · have heq : sanitize_tracker_url url =
        (if scheme = "http".data ∨ scheme = "https".data ∨
            scheme = "udp".data then
          match hostname with
          | some _ => some url
          | none => none
        else none) := by
      unfold sanitize_tracker_url
      rw [hp]
    by_cases hs : scheme = "http".data ∨ scheme = "https".data ∨
        scheme = "udp".data
    · rcases hostname with _ | ho
      · have heq2 : sanitize_tracker_url url = none := by rw [heq, if_pos hs]
        refine ⟨Or.inr heq2, ?_⟩
        constructor
        · intro h
          rw [heq2] at h
          cases h
        · rintro ⟨s, ho, hok, -⟩
          simp at hok
      · have heq2 : sanitize_tracker_url url = some url := by
          rw [heq, if_pos hs]
        refine ⟨Or.inl heq2, ?_⟩
        constructor
        · intro _
          exact ⟨scheme, ho, rfl, hs⟩
        · intro _
          exact heq2
    · have heq2 : sanitize_tracker_url url = none := by rw [heq, if_neg hs]
      refine ⟨Or.inr heq2, ?_⟩
      constructor
      · intro h
        rw [heq2] at h
        cases h
      · rintro ⟨s, ho, hok, hss⟩
        simp only [Except.ok.injEq, Prod.mk.injEq] at hok
        obtain ⟨h1, -⟩ := hok
        subst h1
        exact absurd hss hs

/-- C8 witness at a concrete URL that passes and one aspect checked. -/
theorem c8_sanitize_characterization_witness :
    (sanitize_tracker_url "udp://example.com:80/announce".data =
        some "udp://example.com:80/announce".data ∨
      sanitize_tracker_url "udp://example.com:80/announce".data = none) ∧
    (sanitize_tracker_url "udp://example.com:80/announce".data =
        some "udp://example.com:80/announce".data ↔
      ∃ scheme hostname,
        urlparse "udp://example.com:80/announce".data =
          Except.ok (scheme, some hostname) ∧
        (scheme = "http".data ∨ scheme = "https".data ∨
          scheme = "udp".data)) :=
  c8_sanitize_characterization "udp://example.com:80/announce".data

/-- C9: the cached normalizer is observationally equal to the uncached one:
any sequence of calls started from the empty cache returns exactly the
uncached normalizer's answers. -/
theorem c9_cached_normalizer_agrees (urls : List (List Char)) :
    (runCached urls []).1 = urls.map normalize_tracker_url :=
  (runCached_correct urls [] (by intro p hp; cases hp)).1

/-- C9 witness: a repeated key exercises both the miss and the hit path. -/
theorem c9_cached_normalizer_agrees_witness :
    (runCached ["udp://A.example?tr=x".data, "udp://A.example?tr=x".data]
        []).1 =
      ["udp://A.example?tr=x".data, "udp://A.example?tr=x".data].map
        normalize_tracker_url :=
  c9_cached_normalizer_agrees
    ["udp://A.example?tr=x".data, "udp://A.example?tr=x".data]

/-- C10: `working_trackers` and `dead_trackers` partition
`validation_results`: both preserve order (they are sublists), a result is
in `working_trackers` exactly when it is in the results and alive, in
`dead_trackers` exactly when it is in the results and not alive, and the
two lengths add up to the number of results. -/
theorem c10_working_dead_partition (validation_results : List Tracker) :
    (working_trackers validation_results).length +
        (dead_trackers validation_results).length =
      validation_results.length ∧
    (working_trackers validation_results).Sublist validation_results ∧
    (dead_trackers validation_results).Sublist validation_results ∧
    (∀ t, t ∈ working_trackers validation_results ↔
      t ∈ validation_results ∧ t.alive = true) ∧
    (∀ t, t ∈ dead_trackers validation_results ↔
      t ∈ validation_results ∧ ¬ t.alive = true) := by
  refine ⟨?_, List.filter_sublist _, List.filter_sublist _, ?_, ?_⟩
  · induction validation_results with
    | nil => rfl
    | cons t rest ih =>
      by_cases ht : t.alive
      · simp only [working_trackers, dead_trackers, List.filter_cons] at ih ⊢
        simp [ht]
        omega
      · simp only [working_trackers, dead_trackers, List.filter_cons] at ih ⊢
        simp [ht]
        omega
  · intro t
    simp [working_trackers, List.mem_filter]
  · intro t
    simp [dead_trackers, List.mem_filter]

/-- C10 witness at a concrete two-element collection state. -/
theorem c10_working_dead_partition_witness :
    (working_trackers [⟨"a".data, true, none, none, "http".data⟩,
        ⟨"b".data, false, none, none, "udp".data⟩]).length +
        (dead_trackers [⟨"a".data, true, none, none, "http".data⟩,
        ⟨"b".data, false, none, none, "udp".data⟩]).length =
      ([⟨"a".data, true, none, none, "http".data⟩,
        ⟨"b".data, false, none, none, "udp".data⟩] : List Tracker).length ∧
    (working_trackers [⟨"a".data, true, none, none, "http".data⟩,
        ⟨"b".data, false, none, none, "udp".data⟩]).Sublist
      [⟨"a".data, true, none, none, "http".data⟩,
        ⟨"b".data, false, none, none, "udp".data⟩] ∧
    (dead_trackers [⟨"a".data, true, none, none, "http".data⟩,
        ⟨"b".data, false, none, none, "udp".data⟩]).Sublist
      [⟨"a".data, true, none, none, "http".data⟩,
        ⟨"b".data, false, none, none, "udp".data⟩] ∧
    (∀ t, t ∈ working_trackers [⟨"a".data, true, none, none, "http".data⟩,
        ⟨"b".data, false, none, none, "udp".data⟩] ↔
      t ∈ [⟨"a".data, true, none, none, "http".data⟩,
        ⟨"b".data, false, none, none, "udp".data⟩] ∧ t.alive = true) ∧
    (∀ t, t ∈ dead_trackers [⟨"a".data, true, none, none, "http".data⟩,
        ⟨"b".data, false, none, none, "udp".data⟩] ↔
      t ∈ [⟨"a".data, true, none, none, "http".data⟩,
        ⟨"b".data, false, none, none, "udp".data⟩] ∧ ¬ t.alive = true) :=
  c10_working_dead_partition
    [⟨"a".data, true, none, none, "http".data⟩,
      ⟨"b".data, false, none, none, "udp".data⟩]

/-!
Helpers for the reliability-band claim.
-/

theorem bands_of_lt {t : HistoryRecord} (h : t.check_count < 3) :
    highRel t = false ∧ mediumRel t = false ∧ lowRel t = false := by
  have hd : decide (3 ≤ t.check_count) = false :=
    decide_eq_false_iff_not.mpr (Nat.not_le.mpr h)
  simp [highRel, mediumRel, lowRel, hd]

theorem bands_of_ge {t : HistoryRecord} (h : 3 ≤ t.check_count) :
    (highRel t = true ∧ mediumRel t = false ∧ lowRel t = false) ∨
    (highRel t = false ∧ mediumRel t = true ∧ lowRel t = false) ∨
    (highRel t = false ∧ mediumRel t = false ∧ lowRel t = true) := by
  have hd : decide (3 ≤ t.check_count) = true := decide_eq_true h
  by_cases h9 : (9 : ℚ) / 10 ≤ successRate t
  · refine Or.inl ⟨by simp [highRel, hd, h9], ?_, ?_⟩
    · simp only [mediumRel, hd, Bool.true_and, decide_eq_false_iff_not]
      rintro ⟨-, hlt⟩
      exact absurd h9 (not_le.mpr hlt)
    · simp only [lowRel, hd, Bool.true_and, decide_eq_false_iff_not, not_lt]
      linarith
  · by_cases h7 : (7 : ℚ) / 10 ≤ successRate t
    · refine Or.inr (Or.inl ⟨?_, ?_, ?_⟩)
      · simp [highRel, hd, h9]
      · simp only [mediumRel, hd, Bool.true_and, decide_eq_true_eq]
        exact ⟨h7, not_le.mp h9⟩
      · simp only [lowRel, hd, Bool.true_and, decide_eq_false_iff_not, not_lt]
        exact h7
    · refine Or.inr (Or.inr ⟨?_, ?_, ?_⟩)
      · simp [highRel, hd, h9]
      · simp only [mediumRel, hd, Bool.true_and, decide_eq_false_iff_not]
        rintro ⟨hc, -⟩
        exact h7 hc
      · simp only [lowRel, hd, Bool.true_and, decide_eq_true_eq]
        exact not_le.mp h7

theorem bands_count (history : List HistoryRecord) :
    high_rel_count history + medium_rel_count history + low_rel_count history =
      history.countP (fun r => decide (3 ≤ r.check_count)) := by
  induction history with
  | nil => rfl
  | cons r hs ih =>
    simp only [high_rel_count, medium_rel_count, low_rel_count,
      List.countP_cons] at ih ⊢
    by_cases hcc : 3 ≤ r.check_count
    · have hd : decide (3 ≤ r.check_count) = true := decide_eq_true hcc
      rcases bands_of_ge hcc with ⟨h1, h2, h3⟩ | ⟨h1, h2, h3⟩ | ⟨h1, h2, h3⟩ <;>
        · simp [h1, h2, h3, hd]
          omega
    · have hd : decide (3 ≤ r.check_count) = false :=
        decide_eq_false_iff_not.mpr hcc
      obtain ⟨h1, h2, h3⟩ := bands_of_lt (Nat.lt_of_not_le hcc)
      simp [h1, h2, h3, hd]
      omega

/-- C3: reliability-band classification requires `check_count >= 3`: a
record below the threshold is counted in no band, a record at or above it
is counted in exactly one of high (rate at least 0.9), medium (rate in
[0.7, 0.9)) and low (rate below 0.7), and the three dashboard counters add
up to the number of records with at least three checks. -/
theorem c3_reliability_bands (t : HistoryRecord)
    (history : List HistoryRecord) :
    (t.check_count < 3 →
      highRel t = false ∧ mediumRel t = false ∧ lowRel t = false) ∧
    (3 ≤ t.check_count →
      (highRel t = true ∧ mediumRel t = false ∧ lowRel t = false) ∨
      (highRel t = false ∧ mediumRel t = true ∧ lowRel t = false) ∨
      (highRel t = false ∧ mediumRel t = false ∧ lowRel t = true)) ∧
    high_rel_count history + medium_rel_count history + low_rel_count history =
      history.countP (fun r => decide (3 ≤ r.check_count)) :=
  ⟨fun h => bands_of_lt h, fun h => bands_of_ge h, bands_count history⟩

/-- C3 witness: a record with 3 checks and 2 successes (rate 2/3). -/
theorem c3_reliability_bands_witness :
    ((⟨"u".data, true, 3, 2⟩ : HistoryRecord).check_count < 3 →
      highRel ⟨"u".data, true, 3, 2⟩ = false ∧
      mediumRel ⟨"u".data, true, 3, 2⟩ = false ∧
      lowRel ⟨"u".data, true, 3, 2⟩ = false) ∧
    (3 ≤ (⟨"u".data, true, 3, 2⟩ : HistoryRecord).check_count →
      (highRel ⟨"u".data, true, 3, 2⟩ = true ∧
        mediumRel ⟨"u".data, true, 3, 2⟩ = false ∧
        lowRel ⟨"u".data, true, 3, 2⟩ = false) ∨
      (highRel ⟨"u".data, true, 3, 2⟩ = false ∧
        mediumRel ⟨"u".data, true, 3, 2⟩ = true ∧
        lowRel ⟨"u".data, true, 3, 2⟩ = false) ∨
      (highRel ⟨"u".data, true, 3, 2⟩ = false ∧
        mediumRel ⟨"u".data, true, 3, 2⟩ = false ∧
        lowRel ⟨"u".data, true, 3, 2⟩ = true)) ∧
    high_rel_count [⟨"u".data, true, 3, 2⟩] +
        medium_rel_count [⟨"u".data, true, 3, 2⟩] +
        low_rel_count [⟨"u".data, true, 3, 2⟩] =
      List.countP (fun r => decide (3 ≤ r.check_count))
        ([⟨"u".data, true, 3, 2⟩] : List HistoryRecord) :=
  c3_reliability_bands ⟨"u".data, true, 3, 2⟩ [⟨"u".data, true, 3, 2⟩]

/-!
Helpers for the deduplication claims.
-/

theorem rd_aux_sublist (l : List (List Char)) :
    ∀ seen, (remove_duplicates_aux seen l).Sublist l := by
  induction l with
  | nil => intro seen; simp [remove_duplicates_aux]
  | cons t ts ih =>
    intro seen
    simp only [remove_duplicates_aux]
    by_cases hcond : normalize_tracker_url t ≠ [] ∧
        normalize_tracker_url t ∉ seen
    · rw [if_pos hcond]
      exact List.Sublist.cons₂ t (ih _)
    · rw [if_neg hcond]
      exact List.Sublist.cons t (ih _)

theorem rd_aux_kept_ne (l : List (List Char)) :
    ∀ seen t, t ∈ remove_duplicates_aux seen l →
      normalize_tracker_url t ≠ [] := by
  induction l with
  | nil => intro seen t ht; simp [remove_duplicates_aux] at ht
  | cons hd ts ih =>
    intro seen t ht
    simp only [remove_duplicates_aux] at ht
    by_cases hcond : normalize_tracker_url hd ≠ [] ∧
        normalize_tracker_url hd ∉ seen
    · rw [if_pos hcond] at ht
      rcases List.mem_cons.mp ht with rfl | ht'
      · exact hcond.1
      · exact ih _ t ht'
    · rw [if_neg hcond] at ht
      exact ih _ t ht

theorem rd_aux_covers (l : List (List Char)) :
    ∀ seen t, t ∈ l → normalize_tracker_url t ≠ [] →
      normalize_tracker_url t ∈ seen ∨
      ∃ t' ∈ remove_duplicates_aux seen l,
        normalize_tracker_url t' = normalize_tracker_url t := by
  induction l with
  | nil => intro seen t ht; cases ht
  | cons hd ts ih =>
    intro seen t ht hne
    by_cases hcond : normalize_tracker_url hd ≠ [] ∧
        normalize_tracker_url hd ∉ seen
    · have hout : remove_duplicates_aux seen (hd :: ts) =
          hd :: remove_duplicates_aux (normalize_tracker_url hd :: seen) ts := by
        simp only [remove_duplicates_aux]
        rw [if_pos hcond]
      rcases List.mem_cons.mp ht with rfl | hts
      · exact Or.inr ⟨t, by rw [hout]; exact List.mem_cons_self _ _, rfl⟩
      · rcases ih (normalize_tracker_url hd :: seen) t hts hne with hmem | ⟨t', ht', he⟩
        · rcases List.mem_cons.mp hmem with heq | hmem'
          · exact Or.inr ⟨hd, by rw [hout]; exact List.mem_cons_self _ _,
              heq.symm⟩
          · exact Or.inl hmem'
        · exact Or.inr ⟨t', by rw [hout]; exact List.mem_cons_of_mem _ ht', he⟩
    · have hout : remove_duplicates_aux seen (hd :: ts) =
          remove_duplicates_aux seen ts := by
        simp only [remove_duplicates_aux]
        rw [if_neg hcond]
      rcases List.mem_cons.mp ht with rfl | hts
      · left
        by_contra hnotin
        exact hcond ⟨hne, hnotin⟩
      · rcases ih seen t hts hne with hmem | ⟨t', ht', he⟩
        · exact Or.inl hmem
        · exact Or.inr ⟨t', by rw [hout]; exact ht', he⟩

/-- C1 counterexample: normalization is not idempotent on every raw string.
On `"a ?"` the trailing-`?` strip exposes a trailing space that only the
second pass removes: `normalize "a ?" = "a "` but `normalize "a " = "a"`. -/
theorem c1_normalize_not_idempotent :
    normalize_tracker_url (normalize_tracker_url "a ?".data) ≠
      normalize_tracker_url "a ?".data := by decide

/-- C1 (amended): normalization is idempotent on every raw string that
contains no whitespace character:
`normalize (normalize x) = normalize x`. -/
theorem c1_normalize_idempotent_no_whitespace (x : List Char)
    (hx : ∀ c ∈ x, isSpace c = false) :
    normalize_tracker_url (normalize_tracker_url x) =
      normalize_tracker_url x :=
  normalize_idem_of_no_space x hx

/-- C1 witness at a concrete whitespace-free tracker URL. -/
theorem c1_normalize_idempotent_witness :
    normalize_tracker_url
        (normalize_tracker_url "udp://Tracker.example:1337/announce?tr=x".data) =
      normalize_tracker_url "udp://Tracker.example:1337/announce?tr=x".data :=
  c1_normalize_idempotent_no_whitespace
    "udp://Tracker.example:1337/announce?tr=x".data (by decide)

/-- C2 counterexample: an entry that fails sanitation (scheme `ftp`) is not
dropped by `remove_duplicates` — sanitation is never applied there. -/
theorem c2_sanitize_not_applied :
    sanitize_tracker_url "ftp://example.com/announce".data = none ∧
    remove_duplicates ["ftp://example.com/announce".data] =
      ["ftp://example.com/announce".data] := by decide

/-- C2 (amended): `remove_duplicates` never fails on malformed entries: it
is total, its output is an order-preserving sublist of the input, an entry
is kept only if its normalized key is non-empty, and every entry with a
non-empty normalized key is represented in the output by an entry with the
same key — so entries are dropped only for an empty normalized key or for
being duplicates, not for failing sanitation. -/
theorem c2_remove_duplicates_total (l : List (List Char)) :
    (remove_duplicates l).Sublist l ∧
    (∀ t ∈ remove_duplicates l, normalize_tracker_url t ≠ []) ∧
    (∀ t ∈ l, normalize_tracker_url t ≠ [] →
      ∃ t' ∈ remove_duplicates l,
        normalize_tracker_url t' = normalize_tracker_url t) := by
  refine ⟨rd_aux_sublist l [], fun t ht => rd_aux_kept_ne l [] t ht, ?_⟩
  intro t ht hne
  rcases rd_aux_covers l [] t ht hne with hmem | h
  · cases hmem
  · exact h

/-- C2 witness at a concrete input list. -/
theorem c2_remove_duplicates_total_witness :
    (remove_duplicates ["http://a.example/x".data,
        "ftp://example.com/announce".data]).Sublist
      ["http://a.example/x".data, "ftp://example.com/announce".data] ∧
    (∀ t ∈ remove_duplicates ["http://a.example/x".data,
        "ftp://example.com/announce".data], normalize_tracker_url t ≠ []) ∧
    (∀ t ∈ ["http://a.example/x".data, "ftp://example.com/announce".data],
      normalize_tracker_url t ≠ [] →
      ∃ t' ∈ remove_duplicates ["http://a.example/x".data,
        "ftp://example.com/announce".data],
        normalize_tracker_url t' = normalize_tracker_url t) :=
  c2_remove_duplicates_total
    ["http://a.example/x".data, "ftp://example.com/announce".data]

/-- C4 counterexample: with `a = ""`, `b = "x"`, `c = "y"` — pairwise
distinct under normalization — the output of dedupe on `[a, b, a, c, b]`
is `[b, c]`, not `[a, b, c]`: the empty normalized key is dropped by the
truthiness test. -/
theorem c4_dedupe_counterexample :
    (normalize_tracker_url "".data ≠ normalize_tracker_url "x".data ∧
     normalize_tracker_url "".data ≠ normalize_tracker_url "y".data ∧
     normalize_tracker_url "x".data ≠ normalize_tracker_url "y".data) ∧
    remove_duplicates ["".data, "x".data, "".data, "y".data, "x".data] ≠
      ["".data, "x".data, "y".data] := by decide

/-- C4 (amended): for raw strings `a`, `b`, `c` that are pairwise distinct
under normalization and whose normalized keys are non-empty, dedupe of
`[a, b, a, c, b]` returns `[a, b, c]` in first-occurrence order of the raw
strings (5 total, 3 unique, 2 duplicates). -/
theorem c4_dedupe_first_occurrence_order (a b c : List Char)
    (ha : normalize_tracker_url a ≠ []) (hb : normalize_tracker_url b ≠ [])
    (hc : normalize_tracker_url c ≠ [])
    (hab : normalize_tracker_url a ≠ normalize_tracker_url b)
    (hac : normalize_tracker_url a ≠ normalize_tracker_url c)
    (hbc : normalize_tracker_url b ≠ normalize_tracker_url c) :
    remove_duplicates [a, b, a, c, b] = [a, b, c] ∧
    [a, b, a, c, b].length = 5 ∧
    (remove_duplicates [a, b, a, c, b]).length = 3 := by
  have key : remove_duplicates [a, b, a, c, b] = [a, b, c] := by
    unfold remove_duplicates
    simp only [remove_duplicates_aux]
    rw [if_pos ⟨ha, List.not_mem_nil _⟩,
      if_pos ⟨hb, by simp only [List.mem_singleton]; exact Ne.symm hab⟩,
      if_neg (fun h => h.2 (by simp)),
      if_pos ⟨hc, by simp [Ne.symm hbc, Ne.symm hac]⟩,
      if_neg (fun h => h.2 (by simp))]
  exact ⟨key, rfl, by simp [key]⟩

/-- C4 witness at three concrete pairwise-distinct strings. -/
theorem c4_dedupe_first_occurrence_order_witness :
    remove_duplicates ["a".data, "b".data, "a".data, "c".data, "b".data] =
      ["a".data, "b".data, "c".data] ∧
    (["a".data, "b".data, "a".data, "c".data, "b".data] :
      List (List Char)).length = 5 ∧
    (remove_duplicates
      ["a".data, "b".data, "a".data, "c".data, "b".data]).length = 3 :=
  c4_dedupe_first_occurrence_order "a".data "b".data "c".data (by decide)
    (by decide) (by decide) (by decide) (by decide) (by decide)

/-- C5 counterexample: a configuration with `max_workers = 10`,
`timeout = 10` and `socket_timeout = 0` has all three keys present,
`max_workers` within `[1, 50]` and a positive `timeout`, yet
`validate_config` raises — the truthiness test treats the stored `0` as a
missing key. -/
theorem c5_socket_timeout_zero_rejected :
    validate_config ⟨some 10, some 10, some 0⟩ =
      Except.error "Missing required config: validation.socket_timeout" ∧
    (1 : ℚ) ≤ 10 ∧ (10 : ℚ) ≤ 50 ∧ (0 : ℚ) < 10 := by
  constructor
  · simp [validate_config, truthy]
  · norm_num

/-- C5 (amended): `validate_config` succeeds exactly when `max_workers` is
present and within `[1, 50]`, `timeout` is present and positive, and
`socket_timeout` is present and non-zero; it raises in every other case —
in particular a stored zero is rejected like a missing key. -/
theorem c5_validate_config_iff (c : ConfigData) :
    validate_config c = Except.ok () ↔
      ((∃ w, c.max_workers = some w ∧ 1 ≤ w ∧ w ≤ 50) ∧
       (∃ t, c.timeout = some t ∧ 0 < t) ∧
       (∃ s, c.socket_timeout = some s ∧ ¬ s = 0)) := by
  obtain ⟨mw, t, st⟩ := c
  rcases mw with _ | w
  · simp [validate_config, truthy]
  rcases t with _ | tv
  · simp only [validate_config, truthy]
    constructor
    · intro hok
      split_ifs at hok
    · rintro ⟨-, ⟨t', ht', -⟩, -⟩
      cases ht'
  rcases st with _ | sv
  · simp only [validate_config, truthy]
    constructor
    · intro hok
      split_ifs at hok
      simp_all
    · rintro ⟨-, -, ⟨s', hs', -⟩⟩
      cases hs'
  simp only [validate_config, truthy, Option.some.injEq]
  constructor
  · intro hok
    split_ifs at hok with h1 h2 h3 h4 h5
    any_goals simp at hok
    exact ⟨⟨w, rfl, h4.1, h4.2⟩, ⟨tv, rfl, not_le.mp h5⟩,
      ⟨sv, rfl, by simpa using h3⟩⟩
  · rintro ⟨⟨w', rfl, hw1, hw2⟩, ⟨t', rfl, ht1⟩, ⟨s', rfl, hs1⟩⟩
    have hw0 : ¬ w = 0 := by
      intro h
      rw [h] at hw1
      exact absurd hw1 (by norm_num)
    have htn : ¬ tv ≤ 0 := not_le.mpr ht1
    have ht0 : ¬ tv = 0 := fun h => htn (le_of_eq h)
    simp [hw0, ht0, hs1, hw1, hw2, htn]

/-- C5 witness: an in-bounds configuration validates successfully. -/
theorem c5_validate_config_iff_witness :
    validate_config ⟨some 10, some 10, some 5⟩ = Except.ok () ↔
      ((∃ w, (⟨some 10, some 10, some 5⟩ : ConfigData).max_workers = some w ∧
          1 ≤ w ∧ w ≤ 50) ∧
       (∃ t, (⟨some 10, some 10, some 5⟩ : ConfigData).timeout = some t ∧
          0 < t) ∧
       (∃ s, (⟨some 10, some 10, some 5⟩ : ConfigData).socket_timeout =
          some s ∧ ¬ s = 0)) :=
  c5_validate_config_iff ⟨some 10, some 10, some 5⟩

/-- C7: for every exact-topic info hash `h` — a 40-character hex string or a
32-character base-32 string, in any letter case — and any further magnet
parameters `rest` (empty or starting with `&`, whitespace-free), normalize
maps `magnet:?xt=urn:btih:<h><rest>` to the canonical
`magnet:btih:<lowercased h>`, discarding all other parameters;
consequently the any-case input and its lowercased-hash variant yield the
same normalized key. -/
theorem c7_magnet_canonicalization (h rest : List Char)
    (hh : (h.length = 40 ∧ h.all isHexCI = true) ∨
      (h.length = 32 ∧ h.all isB32CI = true))
    (hr1 : rest = [] ∨ ∃ r, rest = '&' :: r)
    (hr2 : ∀ c ∈ rest, isSpace c = false) :
    normalize_tracker_url ("magnet:?xt=urn:btih:".data ++ h ++ rest) =
      "magnet:btih:".data ++ lower h ∧
    normalize_tracker_url ("magnet:?xt=urn:btih:".data ++ h ++ rest) =
      normalize_tracker_url ("magnet:?xt=urn:btih:".data ++ lower h ++ rest) := by
  have h1 := magnet_canonical_aux h rest hh hr1 hr2
  have hh' : ((lower h).length = 40 ∧ (lower h).all isHexCI = true) ∨
      ((lower h).length = 32 ∧ (lower h).all isB32CI = true) := by
    rcases hh with ⟨hl, hall⟩ | ⟨hl, hall⟩
    · refine Or.inl ⟨by simp [lower, hl], ?_⟩
      rw [List.all_eq_true] at hall ⊢
      intro c hc
      simp only [lower, List.mem_map] at hc
      obtain ⟨d, hd, rfl⟩ := hc
      show isHexLower d.toLower.toLower = true
      rw [toLower_idem]
      exact hall d hd
    · refine Or.inr ⟨by simp [lower, hl], ?_⟩
      rw [List.all_eq_true] at hall ⊢
      intro c hc
      simp only [lower, List.mem_map] at hc
      obtain ⟨d, hd, rfl⟩ := hc
      show isB32Lower d.toLower.toLower = true
      rw [toLower_idem]
      exact hall d hd
  have h2 := magnet_canonical_aux (lower h) rest hh' hr1 hr2
  rw [lower_idem] at h2
  exact ⟨h1, h1.trans h2.symm⟩

/-- C7 witness: the spec's uppercase example hash with a trailing
`&dn=test` parameter. -/
theorem c7_magnet_canonicalization_witness :
    normalize_tracker_url ("magnet:?xt=urn:btih:".data ++
        "ABCDEFABCDEFABCDEFABCDEFABCDEFABCDEF0123".data ++ "&dn=test".data) =
      "magnet:btih:".data ++
        lower "ABCDEFABCDEFABCDEFABCDEFABCDEFABCDEF0123".data ∧
    normalize_tracker_url ("magnet:?xt=urn:btih:".data ++
        "ABCDEFABCDEFABCDEFABCDEFABCDEFABCDEF0123".data ++ "&dn=test".data) =
      normalize_tracker_url ("magnet:?xt=urn:btih:".data ++
        lower "ABCDEFABCDEFABCDEFABCDEFABCDEFABCDEF0123".data ++
        "&dn=test".data) :=
  c7_magnet_canonicalization
    "ABCDEFABCDEFABCDEFABCDEFABCDEFABCDEF0123".data "&dn=test".data
    (Or.inl (by decide)) (Or.inr ⟨"dn=test".data, rfl⟩) (by decide)

